import Mathlib

/-!
# Verification of the ticketguru issue-analysis core

A shallow embedding of the `jira`, `analyze` and `plot` packages of
nclandrei/ticketguru, together with theorems settling the specification
claims about them.

Conventions of the embedding:
* Go strings are Lean `String`s; character-level operations work on
  `String.toList`.  Only ASCII whitespace is modelled for
  `unicode.IsSpace` (the texts in all claims are ASCII).
* Go `time.Time` is modelled as an integer number of nanoseconds
  (`JTime`); `Duration.Hours()` becomes exact division in `ℚ`.
* Go `float64` values are modelled as `ℚ`; an IEEE non-finite result
  (NaN/Inf, arising from division by zero) is modelled as `none` in
  `Option ℚ`.
* Code that can panic returns `Option`; a Go run-time panic is `none`.
-/

set_option linter.dupNamespace false

/-! ## Go string primitives -/

/-- Go `unicode.IsSpace` restricted to ASCII (used by `strings.TrimSpace`). -/
def goIsSpace (c : Char) : Bool :=
  c = ' ' ∨ c = '\t' ∨ c = '\n' ∨ c = '\x0b' ∨ c = '\x0c' ∨ c = '\r'

/-- Go `strings.Split(s, sep)` for a one-character separator.
`strings.Split` of the empty string is a one-element slice holding `""`,
hence the `[[]]` base case. -/
def goSplit (sep : Char) : List Char → List (List Char)
  | [] => [[]]
  | c :: rest =>
    if c = sep then [] :: goSplit sep rest
    else
      match goSplit sep rest with
      | [] => [[c]]
      | h :: t => (c :: h) :: t

/-- Go `strings.TrimSpace`. -/
def goTrimSpace (l : List Char) : List Char :=
  ((l.dropWhile goIsSpace).reverse.dropWhile goIsSpace).reverse

/-- Go `strings.LastIndex(s, ".")` generalised to one character:
index of the last occurrence, `-1` if absent. -/
def lastIndexOf (c : Char) : List Char → Int
  | [] => -1
  | a :: rest =>
    let r := lastIndexOf c rest
    if r ≥ 0 then r + 1
    else if a = c then 0 else -1

/-! ## Data model (`jira/issue.go`) -/

/-- `jira.JTime`, modelled as nanoseconds since the epoch. -/
abbrev JTime := Int

/-- `jira.AttachmentType` (`Image`/`Text`/`Code`/`Video`, iota+1). -/
inductive AttachmentType where
  | Image
  | Text
  | Code
  | Video
deriving DecidableEq, Repr

/-- `jira.Author`. -/
structure Author where
  Name : String := ""
  Email : String := ""
  DisplayName : String := ""
  Active : Bool := false
  TimeZone : String := ""
deriving DecidableEq, Repr

/-- `jira.ChangelogHistoryItem`. -/
structure ChangelogHistoryItem where
  Field : String := ""
  FieldType : String := ""
  From : String := ""
  FromString : String := ""
  To : String := ""
  ToString : String := ""
deriving DecidableEq, Repr

/-- `jira.ChangelogHistory`. -/
structure ChangelogHistory where
  ID : String := ""
  Author : Author := {}
  Created : JTime := 0
  Items : List ChangelogHistoryItem := []
deriving DecidableEq, Repr

/-- `jira.Changelog`. -/
structure Changelog where
  StartAt : Int := 0
  MaxResults : Int := 0
  Total : Int := 0
  Histories : List ChangelogHistory := []
deriving DecidableEq, Repr

/-- `jira.Attachment`. -/
structure Attachment where
  ID : String := ""
  Author : Author := {}
  Filename : String := ""
  Created : JTime := 0
  Size : Int := 0
  MimeType : String := ""
  Content : String := ""
deriving DecidableEq, Repr

/-- `jira.IssueType`. -/
structure IssueType where
  ID : String := ""
  Name : String := ""
  Description : String := ""
deriving DecidableEq, Repr

/-- `jira.Priority`. -/
structure Priority where
  ID : String := ""
  Name : String := ""
deriving DecidableEq, Repr

/-- `jira.Status`. -/
structure Status where
  ID : String := ""
  Description : String := ""
  Name : String := ""
deriving DecidableEq, Repr

/-- `jira.Comment`. -/
structure Comment where
  ID : String := ""
  Body : String := ""
  Author : Author := {}
  Created : JTime := 0
  Updated : JTime := 0
deriving DecidableEq, Repr

/-- `jira.Comments`. -/
structure Comments where
  Comments : List Comment := []
deriving DecidableEq, Repr

/-- `jira.Fields`. -/
structure Fields where
  Summary : String := ""
  Description : String := ""
  TimeEstimate : Int := 0
  TimeSpent : Int := 0
  Created : JTime := 0
  Attachments : List Attachment := []
  Status : Status := {}
  DueDate : JTime := 0
  Comments : Comments := {}
  Priority : Priority := {}
  IssueType : IssueType := {}
deriving DecidableEq, Repr

/-- Modelled from the spec: the optional sentiment score with a presence
flag (§3 derived fields).  `analyze.SentimentScoreAnalysis` reads
`issue.Sentiment.HasScore` and `issue.Sentiment.Score`, but the `Sentiment`
field's declaration is not among the source files under `src/`. -/
structure Sentiment where
  HasScore : Bool := false
  Score : ℚ := 0
deriving DecidableEq, Repr

/-- `jira.Issue`, with the `Sentiment` field used by
`analyze.SentimentScoreAnalysis`. -/
structure Issue where
  Expand : String := ""
  ID : String := ""
  Self : String := ""
  Key : String := ""
  Fields : Fields := {}
  Changelog : Changelog := {}
  Sentiment : Sentiment := {}
deriving DecidableEq, Repr

/-! ## Core analysis functions (`analyze/analyze.go`) -/

/-- `analyze.calculateTimeDifference`: duration between two timestamps in
hours (`time.Time.Sub(...).Hours()`; nanoseconds per hour = 3.6e12). -/
def calculateTimeDifference (t1 t2 : JTime) : ℚ :=
  ((t1 - t2 : Int) : ℚ) / 3600000000000

/-- `analyze.isIssueHighPriority`: priority ID `"1"` (Critical) or `"2"`
(Major). -/
def isIssueHighPriority (issue : Issue) : Bool :=
  issue.Fields.Priority.ID = "1" ∨ issue.Fields.Priority.ID = "2"

/-- Inner loop of `analyze.timeToResolve`: does some item of a history
record the `status` transition `Open → Closed`? -/
def itemsHaveOpenClosed : List ChangelogHistoryItem → Bool
  | [] => false
  | item :: rest =>
    if item.Field = "status" ∧ item.FromString = "Open" ∧ item.ToString = "Closed"
    then true
    else itemsHaveOpenClosed rest

/-- Outer loop of `analyze.timeToResolve` over the changelog histories. -/
def timeToResolveLoop (created : JTime) : List ChangelogHistory → ℚ
  | [] => -1
  | history :: rest =>
    if itemsHaveOpenClosed history.Items
    then calculateTimeDifference history.Created created
    else timeToResolveLoop created rest

/-- `analyze.timeToResolve`: hours from creation to the first stored
history containing a `status` `Open → Closed` item, `-1` if none. -/
def timeToResolve (issue : Issue) : ℚ :=
  timeToResolveLoop issue.Fields.Created issue.Changelog.Histories

/-- `analyze.calculateNumberOfWords`: split into lines at `'\n'`, trim
each line, split the trimmed line at single `' '` characters, sum the
counts.  (`jira.CalculateNumberOfWords` has the identical body.) -/
def calculateNumberOfWords (s : String) : Nat :=
  ((goSplit '\n' s.toList).map
    fun line => (goSplit ' ' (goTrimSpace line)).length).sum

/-- `jira.CalculateNumberOfWords` (`jira/issue.go`), textually identical
to `analyze.calculateNumberOfWords`. -/
def CalculateNumberOfWords (s : String) : Nat :=
  ((goSplit '\n' s.toList).map
    fun line => (goSplit ' ' (goTrimSpace line)).length).sum

/-- `analyze.WordinessAnalysis`: word count of the selected field and
time-to-complete, for issues passing the `timeDiff > -1 && high-priority`
guard.  The `switch field` without a default appends a word count only
for the three recognised selectors, while `timeDiffs` always grows. -/
def WordinessAnalysis : List Issue → String → List ℚ × List ℚ
  | [], _ => ([], [])
  | issue :: rest, field =>
    let (wordCountSlice, timeDiffs) := WordinessAnalysis rest field
    let timeDiff := timeToResolve issue
    if timeDiff > -1 ∧ isIssueHighPriority issue then
      let wcs :=
        if field = "description" then
          ((calculateNumberOfWords issue.Fields.Description : ℚ) :: wordCountSlice)
        else if field = "summary" then
          ((calculateNumberOfWords issue.Fields.Summary : ℚ) :: wordCountSlice)
        else if field = "comment" then
          (((issue.Fields.Comments.Comments.map
              fun comment => calculateNumberOfWords comment.Body).sum : ℚ)
            :: wordCountSlice)
        else wordCountSlice
      (wcs, timeDiff :: timeDiffs)
    else (wordCountSlice, timeDiffs)

/-- `analyze.AttachmentsAnalysis`: time-to-complete for eligible issues,
split by presence of attachments. -/
def AttachmentsAnalysis : List Issue → List ℚ × List ℚ
  | [] => ([], [])
  | issue :: rest =>
    let (withAttch, withoutAttch) := AttachmentsAnalysis rest
    let timeDiff := timeToResolve issue
    if timeDiff > -1 ∧ isIssueHighPriority issue then
      if issue.Fields.Attachments.length > 0 then
        (timeDiff :: withAttch, withoutAttch)
      else
        (withAttch, timeDiff :: withoutAttch)
    else (withAttch, withoutAttch)

/-- `analyze.SentimentScoreAnalysis`: sentiment scores and
time-to-complete for eligible issues carrying a score. -/
def SentimentScoreAnalysis : List Issue → List ℚ × List ℚ
  | [] => ([], [])
  | issue :: rest =>
    let (scores, timeDiffs) := SentimentScoreAnalysis rest
    let timeDiff := timeToResolve issue
    if timeDiff > -1 ∧ isIssueHighPriority issue ∧ issue.Sentiment.HasScore then
      (issue.Sentiment.Score :: scores, timeDiff :: timeDiffs)
    else (scores, timeDiffs)

/-- The `switch ext` shared by both attachment classifiers, as the
sequential comparison chain Go's `switch` performs.  The comparison is
exact: no lower-casing happens anywhere. -/
def extSwitch (ext : String) : AttachmentType :=
  if ext = "md" then .Text
  else if ext = "txt" then .Text
  else if ext = "pdf" then .Text
  else if ext = "png" then .Image
  else if ext = "jpg" then .Image
  else if ext = "jpeg" then .Image
  else if ext = "gif" then .Image
  else if ext = "bmp" then .Image
  else if ext = "mp4" then .Video
  else if ext = "avi" then .Video
  else if ext = "mkv" then .Video
  else .Code

/-- `analyze.getAttachmentType`: classify by the substring after the last
`'.'` (the whole name when there is no dot, since `LastIndex` yields `-1`
and the code slices from index `-1 + 1 = 0`). -/
def getAttachmentType (filename : String) : AttachmentType :=
  let extIndex : Int := lastIndexOf '.' filename.toList
  let ext : String := ⟨filename.toList.drop (extIndex + 1).toNat⟩
  extSwitch ext

/-- `jira.GetAttachmentType`: slices `filename[strings.LastIndex(filename, "."):]`,
so the compared substring keeps the leading dot; when the filename has no
dot at all, Go panics on the negative slice bound (`none` here). -/
def GetAttachmentType (filename : String) : Option AttachmentType :=
  let i : Int := lastIndexOf '.' filename.toList
  if i < 0 then none
  else
    let ext : String := ⟨filename.toList.drop i.toNat⟩
    some (extSwitch ext)

/-! ## Regular expressions

`analyze.containsRegex` compiles a pattern with `regexp.Compile` and
tests `FindStringIndex(s) != nil`.  The engine below models the subset of
RE2 used by the two pattern literals of `analyze/analyze.go`: character
classes, `.`, escapes `\n` `\s` and escaped literals, groups,
postfix `*`, `+` and `{n,}`, and a leading `^` anchor.  Matching is by
Brzozowski derivatives. -/

/-- A first-order character class: a positive or negated character set. -/
inductive CharClass where
  | pos (cs : List Char)
  | neg (cs : List Char)
deriving DecidableEq, Repr

/-- Does a character belong to the class? -/
def CharClass.denote : CharClass → Char → Bool
  | .pos cs, c => cs.contains c
  | .neg cs, c => !cs.contains c

/-- Regular expressions over `Char` with character classes. -/
inductive RE where
  | eps
  | cls (k : CharClass)
  | seq (a b : RE)
  | alt (a b : RE)
  | star (a : RE)
deriving DecidableEq, Repr

/-- The empty regular expression (no word matches): an empty positive
class. -/
def RE.fail : RE := .cls (.pos [])

/-- Does the regular expression accept the empty word? -/
def RE.nullable : RE → Bool
  | .eps => true
  | .cls _ => false
  | .seq a b => a.nullable && b.nullable
  | .alt a b => a.nullable || b.nullable
  | .star _ => true

/-- Brzozowski derivative. -/
def RE.deriv : RE → Char → RE
  | .eps, _ => RE.fail
  | .cls k, c => if k.denote c then .eps else RE.fail
  | .seq a b, c =>
    if a.nullable then .alt (.seq (a.deriv c) b) (b.deriv c)
    else .seq (a.deriv c) b
  | .alt a b, c => .alt (a.deriv c) (b.deriv c)
  | .star a, c => .seq (a.deriv c) (.star a)

/-- Exact match of a whole word, by iterated derivatives. -/
def RE.rmatch : RE → List Char → Bool
  | r, [] => r.nullable
  | r, c :: s => (r.deriv c).rmatch s

/-- Does some prefix of the word match? -/
def RE.prefixMatch : RE → List Char → Bool
  | r, [] => r.nullable
  | r, c :: s => r.nullable || (r.deriv c).prefixMatch s

/-- Does some substring match (Go `FindStringIndex(s) != nil` for an
unanchored pattern)? -/
def RE.searchAnywhere : RE → List Char → Bool
  | r, [] => r.nullable
  | r, c :: s => r.prefixMatch (c :: s) || r.searchAnywhere s

/-- Declarative language semantics of a regular expression. -/
def RE.Lang : RE → List Char → Prop
  | .eps, s => s = []
  | .cls k, s => ∃ c, s = [c] ∧ k.denote c = true
  | .seq a b, s => ∃ u v, s = u ++ v ∧ a.Lang u ∧ b.Lang v
  | .alt a b, s => a.Lang s ∨ b.Lang s
  | .star a, s => ∃ parts : List (List Char),
      s = parts.flatten ∧ ∀ t ∈ parts, t ≠ [] ∧ a.Lang t

/-- RE2 `\s`: `[\t\n\f\r ]`. -/
def spaceChars : List Char := ['\t', '\n', '\x0c', '\r', ' ']

/-- Class denoted by an escape sequence (`\n`, `\s`, or an escaped
literal such as `\*`). -/
def escClass (c : Char) : CharClass :=
  if c = 'n' then .pos ['\n']
  else if c = 's' then .pos spaceChars
  else .pos [c]

/-- Parse the characters of a bracket class body up to `]` (escapes
allowed). -/
def parseClassChars : Nat → List Char → Option (List Char × List Char)
  | 0, _ => none
  | _, [] => none
  | fuel+1, c :: rest =>
    if c = ']' then some ([], c :: rest)
    else if c = '\\' then
      match rest with
      | [] => none
      | e :: rest2 =>
        let ec := if e = 'n' then '\n' else e
        (parseClassChars fuel rest2).map fun p => (ec :: p.1, p.2)
    else (parseClassChars fuel rest).map fun p => (c :: p.1, p.2)

/-- `{n,}` as `n` copies followed by a star. -/
def reMany : Nat → RE → RE
  | 0, r => .star r
  | n+1, r => .seq r (reMany n r)

/-- Apply postfix operators `*`, `+`, `{n,}` to a parsed atom. -/
def applyPostfixes : Nat → RE → List Char → Option (RE × List Char)
  | 0, _, _ => none
  | fuel+1, r, l =>
    match l with
    | '*' :: rest => applyPostfixes fuel (.star r) rest
    | '+' :: rest => applyPostfixes fuel (.seq r (.star r)) rest
    | '\x7b' :: d :: ',' :: '\x7d' :: rest =>
      if d.isDigit then applyPostfixes fuel (reMany (d.toNat - '0'.toNat) r) rest
      else none
    | _ => some (r, l)

mutual

/-- Parse a concatenation (up to `)` or the end of the pattern). -/
def parseSeqF : Nat → List Char → Option (RE × List Char)
  | 0, _ => none
  | fuel+1, l =>
    match l with
    | [] => some (.eps, [])
    | ')' :: _ => some (.eps, l)
    | _ =>
      match parseAtomF fuel l with
      | none => none
      | some (a, l1) =>
        match applyPostfixes (l1.length + 1) a l1 with
        | none => none
        | some (r, l2) =>
          match parseSeqF fuel l2 with
          | none => none
          | some (rest, l3) =>
            some (if rest = .eps then r else .seq r rest, l3)

/-- Parse one atom: a group, a bracket class, an escape, `.`, or a
literal character. -/
def parseAtomF : Nat → List Char → Option (RE × List Char)
  | 0, _ => none
  | fuel+1, l =>
    match l with
    | '(' :: rest =>
      match parseSeqF fuel rest with
      | some (r, ')' :: rem) => some (r, rem)
      | _ => none
    | '[' :: '^' :: rest =>
      match parseClassChars (rest.length + 1) rest with
      | some (cs, ']' :: rem) => some (.cls (.neg cs), rem)
      | _ => none
    | '[' :: rest =>
      match parseClassChars (rest.length + 1) rest with
      | some (cs, ']' :: rem) => some (.cls (.pos cs), rem)
      | _ => none
    | '\\' :: e :: rest => some (.cls (escClass e), rest)
    | '.' :: rest => some (.cls (.neg ['\n']), rest)
    | c :: rest =>
      if c = '*' ∨ c = '+' ∨ c = ')' ∨ c = '\x7b' ∨ c = '^' ∨ c = '$' ∨
         c = '?' ∨ c = '|' then none
      else some (.cls (.pos [c]), rest)
    | [] => none

end

/-- Model of `regexp.Compile` on the RE2 subset above: strips a leading
`^` anchor (RE2 `^` matches only at the start of the text when the
multi-line flag is off) and parses the rest. -/
def compileGo (pattern : String) : Option (Bool × RE) :=
  let l := pattern.toList
  let p : Bool × List Char :=
    match l with
    | '^' :: rest => (true, rest)
    | _ => (false, l)
  match parseSeqF (p.2.length + 1) p.2 with
  | some (r, []) => some (p.1, r)
  | _ => none

/-- The pattern literal of `analyze.HasStepsToReproduce`. -/
def stepsExpr : String := "(\\n(\\s*)\\*(.*))\x7b2,\x7d"

/-- The pattern literal of `analyze.HasStackTrace`. -/
def stackExpr : String := "^.+Exception[^\\n]+\\n(\\s*at.+\\s*\\n)+"

/-- `.` — any character but a newline. -/
def reAny : RE := .cls (.neg ['\n'])

/-- The literal newline (`\n`). -/
def reNl : RE := .cls (.pos ['\n'])

/-- `\s*` — any run of RE2 whitespace. -/
def reSpc : RE := .star (.cls (.pos spaceChars))

/-- `.+` (and `[^\n]+`, the same class). -/
def reAnyPlus : RE := .seq reAny (.star reAny)

/-- A single literal character. -/
def reChar (c : Char) : RE := .cls (.pos [c])

/-- One group `\n(\s*)\*(.*)` of the steps pattern. -/
def bulletGroup : RE :=
  .seq reNl (.seq reSpc (.seq (reChar '*') (.star reAny)))

/-- The compiled steps pattern `(\n(\s*)\*(.*)){2,}`. -/
def stepsRE : RE := .seq bulletGroup (.seq bulletGroup (.star bulletGroup))

/-- One group `\s*at.+\s*\n` of the stack pattern. -/
def atGroup : RE :=
  .seq reSpc (.seq (reChar 'a') (.seq (reChar 't')
    (.seq reAnyPlus (.seq reSpc reNl))))

/-- `(\s*at.+\s*\n)+` — one or more stack-frame groups. -/
def atPlus : RE := .seq atGroup (.star atGroup)

/-- The compiled stack pattern (body after the `^` anchor)
`.+Exception[^\n]+\n(\s*at.+\s*\n)+`. -/
def stackRE : RE :=
  .seq reAnyPlus (.seq (reChar 'E') (.seq (reChar 'x') (.seq (reChar 'c')
    (.seq (reChar 'e') (.seq (reChar 'p') (.seq (reChar 't')
      (.seq (reChar 'i') (.seq (reChar 'o') (.seq (reChar 'n')
        (.seq reAnyPlus (.seq reNl atPlus)))))))))))

/-- `analyze.containsRegex`: compile the pattern, then
`FindStringIndex(s) != nil`. -/
def containsRegex (s expr : String) : Except String Bool :=
  match compileGo expr with
  | none => .error "error parsing regexp"
  | some p =>
    .ok (if p.1 then p.2.prefixMatch s.toList else p.2.searchAnywhere s.toList)

/-- The comment loop of `analyze.HasStepsToReproduce`. -/
def hasStepsLoop : List Comment → Except String Bool
  | [] => .ok false
  | comment :: rest =>
    match containsRegex comment.Body stepsExpr with
    | .error e => .error e
    | .ok true => .ok true
    | .ok false => hasStepsLoop rest

/-- `analyze.HasStepsToReproduce`: description first, then each comment
body in order, short-circuiting on the first match. -/
def HasStepsToReproduce (issue : Issue) : Except String Bool :=
  match containsRegex issue.Fields.Description stepsExpr with
  | .error e => .error e
  | .ok true => .ok true
  | .ok false => hasStepsLoop issue.Fields.Comments.Comments

/-- The comment loop of `analyze.HasStackTrace`. -/
def hasStackLoop : List Comment → Except String Bool
  | [] => .ok false
  | comment :: rest =>
    match containsRegex comment.Body stackExpr with
    | .error e => .error e
    | .ok true => .ok true
    | .ok false => hasStackLoop rest

/-- `analyze.HasStackTrace`: description first, then each comment body in
order, short-circuiting on the first match. -/
def HasStackTrace (issue : Issue) : Except String Bool :=
  match containsRegex issue.Fields.Description stackExpr with
  | .error e => .error e
  | .ok true => .ok true
  | .ok false => hasStackLoop issue.Fields.Comments.Comments

/-! ## The plot package (boolean/categorical aggregations) -/

/-- The attachment-type constants referenced by `plot.Attachments`. -/
inductive TicketAttachmentType where
  | CodeAttachment
  | ArchiveAttachment
  | ImageAttachment
  | ConfigAttachment
  | TextAttachment
  | SpreadsheetAttachment
  | OtherAttachment
deriving DecidableEq, Repr

/-- An attachment of a `jira.Ticket` as used by `plot.Attachments`.  The
Go field is named `Type`, a reserved word in Lean, hence `Ty`. -/
structure TicketAttachment where
  Ty : TicketAttachmentType := .OtherAttachment
deriving DecidableEq, Repr

/-- The `Fields` of a `jira.Ticket` as used by the plot package. -/
structure TicketFields where
  Attachments : List TicketAttachment := []
deriving DecidableEq, Repr

/-- Modelled from the spec: the `jira.Ticket` record (§3) whose
declaration is not among the files under `src/`; only the fields the
plot package reads are included (`TimeToClose`, `Fields.Attachments`,
`HasStepsToReproduce`). -/
structure Ticket where
  TimeToClose : ℚ := 0
  Fields : TicketFields := {}
  HasStepsToReproduce : Bool := false
deriving DecidableEq, Repr

/-- Go `float64` division by a count: a zero count yields a non-finite
IEEE value (NaN, as the numerator sum is then also zero), modelled as
`none`. -/
def goDiv (a b : ℚ) : Option ℚ :=
  if b = 0 then none else some (a / b)

/-- A Go map; `none` is the nil map, to which assignment panics. -/
def GoMap (α : Type) : Type := Option (List (String × α))

/-- Assignment `m[k] = v`; on the nil map Go panics (`none`). -/
def goMapAssign (m : GoMap α) (k : String) (v : α) : Option (GoMap α) :=
  match m with
  | none => none
  | some entries =>
    some (some ((entries.filter fun e => e.1 ≠ k) ++ [(k, v)]))

/-- The accumulation loop of `plot.StepsToReproduce`: tickets with
`TimeToClose <= 0 || TimeToClose > 27000` are skipped; the rest
contribute to the with/without sums.  Returns
`(withCount, withSum, withoutSum)`. -/
def stepsCounts : List Ticket → Nat × ℚ × ℚ
  | [] => (0, 0, 0)
  | t :: rest =>
    let acc := stepsCounts rest
    if t.TimeToClose ≤ 0 ∨ t.TimeToClose > 27000 then acc
    else if t.HasStepsToReproduce then
      (acc.1 + 1, acc.2.1 + t.TimeToClose, acc.2.2)
    else (acc.1, acc.2.1, acc.2.2 + t.TimeToClose)

/-- `plot.StepsToReproduce`: the two per-category means handed to the
barchart, with no guard against a zero count
(`withSum / float64(withCount)` and
`withoutSum / float64(len(tickets)-withCount)`). -/
def StepsToReproduce (tickets : List Ticket) : List (String × Option ℚ) :=
  let acc := stepsCounts tickets
  [("With Steps to Reproduce", goDiv acc.2.1 (acc.1 : ℚ)),
   ("Without Steps to Reproduce",
     goDiv acc.2.2 ((tickets.length : ℚ) - (acc.1 : ℚ)))]

/-- Bump the per-type `(count, time)` accumulators
(`typeCountM[a.Type]++; typeTimeM[a.Type] += ticket.TimeToClose`). -/
def bumpType (m : List (TicketAttachmentType × Nat × ℚ))
    (ty : TicketAttachmentType) (time : ℚ) :
    List (TicketAttachmentType × Nat × ℚ) :=
  match m with
  | [] => [(ty, 1, time)]
  | e :: rest =>
    if e.1 = ty then (e.1, e.2.1 + 1, e.2.2 + time) :: rest
    else e :: bumpType rest ty time

/-- The accumulation loop of `plot.Attachments`: returns
`(withoutCount, withoutTime, per-type accumulators)`. -/
def attachStats : List Ticket → Nat × ℚ × List (TicketAttachmentType × Nat × ℚ)
  | [] => (0, 0, [])
  | t :: rest =>
    let acc := attachStats rest
    if t.TimeToClose ≤ 0 ∨ t.TimeToClose > 27000 then acc
    else if t.Fields.Attachments.length = 0 then
      (acc.1 + 1, acc.2.1 + t.TimeToClose, acc.2.2)
    else
      (acc.1, acc.2.1,
        t.Fields.Attachments.foldl
          (fun m a => bumpType m a.Ty t.TimeToClose) acc.2.2)

/-- The chart label of each attachment type in `plot.Attachments`. -/
def typeLabel : TicketAttachmentType → String
  | .CodeAttachment => "Code"
  | .ArchiveAttachment => "Archive"
  | .ImageAttachment => "Image"
  | .ConfigAttachment => "Config"
  | .TextAttachment => "Text"
  | .SpreadsheetAttachment => "Spreadsheet"
  | .OtherAttachment => "Other"

/-- `plot.Attachments`: `var result map[string]float64` declares a nil
map, and `result["Without Attachments"] = withoutTime/float64(withoutCount)`
is an assignment to a nil map — a run-time panic (`none`), reached on
every call.  The per-type means that would follow (iterated here in
insertion order; Go's map iteration order is unspecified) are likewise
unguarded divisions. -/
def Attachments (tickets : List Ticket) : Option (List (String × Option ℚ)) :=
  let result : GoMap (Option ℚ) := none
  let acc := attachStats tickets
  match goMapAssign result "Without Attachments" (goDiv acc.2.1 (acc.1 : ℚ)) with
  | none => none
  | some result1 =>
    match acc.2.2.foldlM
        (fun m e => goMapAssign m (typeLabel e.1) (goDiv e.2.2 (e.2.1 : ℚ)))
        result1 with
    | some (some entries) => some entries
    | _ => none

/-! ## Spec-side definitions and concrete inputs -/

/-- The classification table of spec §4.4, amended to the exact,
case-sensitive comparison the source performs. -/
def specClassify (ext : String) : AttachmentType :=
  if ext = "md" ∨ ext = "txt" ∨ ext = "pdf" then .Text
  else if ext = "png" ∨ ext = "jpg" ∨ ext = "jpeg" ∨ ext = "gif" ∨ ext = "bmp"
    then .Image
  else if ext = "mp4" ∨ ext = "avi" ∨ ext = "mkv" then .Video
  else .Code

/-- The spec's "substring after the last `.`", computed independently of
the source: the last segment of the dot-separated split (the whole name
when no dot occurs). -/
def afterLastDot (s : String) : String :=
  ⟨(goSplit '.' s.toList).getLastD []⟩

/-- The qualifying changelog item of the resolution resolver. -/
def isOpenClosedItem (item : ChangelogHistoryItem) : Bool :=
  item.Field = "status" ∧ item.FromString = "Open" ∧ item.ToString = "Closed"

/-- The eligibility guard shared by the three analyze aggregators. -/
def eligibleB (issue : Issue) : Bool :=
  decide (timeToResolve issue > -1) && isIssueHighPriority issue

/-- The eligibility guard of `SentimentScoreAnalysis`. -/
def eligibleScoredB (issue : Issue) : Bool :=
  decide (timeToResolve issue > -1) && isIssueHighPriority issue
    && issue.Sentiment.HasScore

/-- The description word count, as appended by `WordinessAnalysis`. -/
def descWordCount (issue : Issue) : ℚ :=
  (calculateNumberOfWords issue.Fields.Description : ℚ)

/-- The summary word count, as appended by `WordinessAnalysis`. -/
def summaryWordCount (issue : Issue) : ℚ :=
  (calculateNumberOfWords issue.Fields.Summary : ℚ)

/-- The summed comment word count, as appended by `WordinessAnalysis`. -/
def commentWordCount (issue : Issue) : ℚ :=
  ((issue.Fields.Comments.Comments.map
    fun comment => calculateNumberOfWords comment.Body).sum : ℚ)

/-- The `status` `Open → Closed` changelog item. -/
def openClosedItem : ChangelogHistoryItem :=
  { Field := "status", FromString := "Open", ToString := "Closed" }

/-- A history closing the issue five hours (in nanoseconds) after epoch. -/
def closeHistory : ChangelogHistory :=
  { Created := 18000000000000, Items := [openClosedItem] }

/-- A Critical issue resolved `Open → Closed` five hours after creation. -/
def issResolved : Issue :=
  { Fields := { Priority := { ID := "1" }, Created := 0 },
    Changelog := { Histories := [closeHistory] } }

/-- An issue with a non-high priority and an empty changelog. -/
def issLowPriority : Issue :=
  { Fields := { Priority := { ID := "3" } } }

/-- A description whose first line mentions an exception and is followed
by a single `at` line. -/
def issOneAtLine : Issue :=
  { Fields := { Description := "MyException: boom\n at Foo.bar(Foo.java:10)\n" } }

/-- A description with the exception line second and two `at` lines. -/
def issExceptionSecondLine : Issue :=
  { Fields := { Description :=
      "intro line\nMyException: boom\nat a.b(c:1)\nat d.e(f:2)\n" } }

/-- A description that is exactly two bullet lines, starting at the very
first character. -/
def issBulletsAtStart : Issue :=
  { Fields := { Description := "* step one\n* step two" } }

/-- An eligible ticket carrying one image attachment. -/
def ticketWithImage : Ticket :=
  { TimeToClose := 5, Fields := { Attachments := [{ Ty := .ImageAttachment }] } }

/-- A text region matched by the steps pattern `(\n(\s*)\*(.*)){2,}`,
spelled out structurally: two bullet groups in direct succession, each a
newline, optional whitespace (which may include further newlines), a
`'*'` and a newline-free remainder of the line. -/
def StepsMatch (t : List Char) : Prop :=
  ∃ pre ws1 r1 ws2 r2 post : List Char,
    (∀ c ∈ ws1, c ∈ spaceChars) ∧ (∀ c ∈ ws2, c ∈ spaceChars) ∧
    '\n' ∉ r1 ∧ '\n' ∉ r2 ∧
    t = pre ++ '\n' :: (ws1 ++ '*' :: (r1 ++ '\n' :: (ws2 ++ '*' :: (r2 ++ post))))

/-- One stack-frame line matched by `\s*at.+\s*\n`: optional whitespace,
`at`, at least one further newline-free character, optional whitespace,
and a terminating newline. -/
def IsAtGroup (w : List Char) : Prop :=
  ∃ ws1 r ws2 : List Char,
    (∀ c ∈ ws1, c ∈ spaceChars) ∧ (∀ c ∈ ws2, c ∈ spaceChars) ∧
    r ≠ [] ∧ '\n' ∉ r ∧
    w = ws1 ++ 'a' :: 't' :: (r ++ (ws2 ++ ['\n']))

/-- A text matched by the anchored stack pattern
`^.+Exception[^\n]+\n(\s*at.+\s*\n)+` spelled out structurally: the text
begins with at least one newline-free character, `Exception`, at least
one further newline-free character, a newline, and one or more
stack-frame groups. -/
def StackMatch (t : List Char) : Prop :=
  ∃ a b rest : List Char, ∃ gs : List (List Char),
    a ≠ [] ∧ '\n' ∉ a ∧ b ≠ [] ∧ '\n' ∉ b ∧
    gs ≠ [] ∧ (∀ g ∈ gs, IsAtGroup g) ∧
    t = a ++ 'E' :: 'x' :: 'c' :: 'e' :: 'p' :: 't' :: 'i' :: 'o' :: 'n' ::
      (b ++ '\n' :: (gs.flatten ++ rest))

/-! ## Helper lemmas -/

theorem itemsHaveOpenClosed_eq_any (items : List ChangelogHistoryItem) :
    itemsHaveOpenClosed items = items.any isOpenClosedItem := by
  induction items with
  | nil => rfl
  | cons item rest ih =>
    by_cases h : item.Field = "status" ∧ item.FromString = "Open" ∧
        item.ToString = "Closed" <;>
      simp [itemsHaveOpenClosed, isOpenClosedItem, h, ih]

theorem timeToResolveLoop_eq_find (created : JTime)
    (hs : List ChangelogHistory) :
    timeToResolveLoop created hs =
      match hs.find? (fun history => history.Items.any isOpenClosedItem) with
      | some history => calculateTimeDifference history.Created created
      | none => -1 := by
  induction hs with
  | nil => rfl
  | cons h rest ih =>
    cases hb : h.Items.any isOpenClosedItem <;>
      simp [timeToResolveLoop, itemsHaveOpenClosed_eq_any, List.find?_cons,
        hb, ih]

theorem itemsHaveOpenClosed_eq_false (items : List ChangelogHistoryItem)
    (h : ∀ item ∈ items, ¬(item.Field = "status" ∧ item.FromString = "Open" ∧
      item.ToString = "Closed")) :
    itemsHaveOpenClosed items = false := by
  induction items with
  | nil => rfl
  | cons item rest ih =>
    simp only [itemsHaveOpenClosed]
    rw [if_neg (h item (List.mem_cons_self item rest))]
    exact ih fun it hit => h it (List.mem_cons_of_mem item hit)

theorem timeToResolveLoop_of_none (created : JTime)
    (hs : List ChangelogHistory)
    (h : ∀ history ∈ hs, ∀ item ∈ history.Items,
      ¬(item.Field = "status" ∧ item.FromString = "Open" ∧
        item.ToString = "Closed")) :
    timeToResolveLoop created hs = -1 := by
  induction hs with
  | nil => rfl
  | cons hd rest ih =>
    have hhd : itemsHaveOpenClosed hd.Items = false :=
      itemsHaveOpenClosed_eq_false hd.Items (h hd (List.mem_cons_self hd rest))
    simp only [timeToResolveLoop, hhd, Bool.false_eq_true, if_false]
    exact ih fun hist hm => h hist (List.mem_cons_of_mem hd hm)

theorem timeToResolve_of_no_open_closed (issue : Issue)
    (h : ∀ history ∈ issue.Changelog.Histories, ∀ item ∈ history.Items,
      ¬(item.Field = "status" ∧ item.FromString = "Open" ∧
        item.ToString = "Closed")) :
    timeToResolve issue = -1 :=
  timeToResolveLoop_of_none issue.Fields.Created issue.Changelog.Histories h

/-! ## C1 -/

/-- C1: `timeToResolve` scans the stored changelog histories in order and
returns the elapsed hours between the issue's creation and the `Created`
timestamp of the first history containing a `status` item with
`FromString = "Open"` and `ToString = "Closed"`; if no history contains
such an item (in particular on the empty log) it returns the sentinel
`-1`, and no other transition qualifies. -/
theorem c1_timeToResolve_first_qualifying (issue : Issue) :
    timeToResolve issue =
      match issue.Changelog.Histories.find?
          (fun history => history.Items.any isOpenClosedItem) with
      | some history => calculateTimeDifference history.Created issue.Fields.Created
      | none => -1 :=
  timeToResolveLoop_eq_find issue.Fields.Created issue.Changelog.Histories

/-! ## C2 -/

theorem wordiness_removal (xs ys : List Issue) (issue : Issue) (field : String)
    (hg : ¬(timeToResolve issue > -1 ∧ isIssueHighPriority issue = true)) :
    WordinessAnalysis (xs ++ issue :: ys) field =
      WordinessAnalysis (xs ++ ys) field := by
  induction xs with
  | nil =>
    simp only [List.nil_append, WordinessAnalysis]
    rw [if_neg hg]
  | cons x xs ih =>
    simp only [List.cons_append, List.append_eq, WordinessAnalysis]
    rw [ih]

theorem attachments_removal (xs ys : List Issue) (issue : Issue)
    (hg : ¬(timeToResolve issue > -1 ∧ isIssueHighPriority issue = true)) :
    AttachmentsAnalysis (xs ++ issue :: ys) = AttachmentsAnalysis (xs ++ ys) := by
  induction xs with
  | nil =>
    simp only [List.nil_append, AttachmentsAnalysis]
    rw [if_neg hg]
  | cons x xs ih =>
    simp only [List.cons_append, List.append_eq, AttachmentsAnalysis]
    rw [ih]

theorem sentiment_removal (xs ys : List Issue) (issue : Issue)
    (hg : ¬(timeToResolve issue > -1 ∧ isIssueHighPriority issue = true ∧
      issue.Sentiment.HasScore = true)) :
    SentimentScoreAnalysis (xs ++ issue :: ys) =
      SentimentScoreAnalysis (xs ++ ys) := by
  induction xs with
  | nil =>
    simp only [List.nil_append, SentimentScoreAnalysis]
    rw [if_neg hg]
  | cons x xs ih =>
    simp only [List.cons_append, List.append_eq, SentimentScoreAnalysis]
    rw [ih]

/-- C2: an issue whose changelog has no `status` `Open → Closed` item, or
whose priority ID is neither `"1"` (Critical) nor `"2"` (Major),
contributes no element to any output series of `WordinessAnalysis`,
`AttachmentsAnalysis` or `SentimentScoreAnalysis`: removing it from any
position of the input list leaves all outputs unchanged. -/
theorem c2_excluded_issue_contributes_nothing
    (xs ys : List Issue) (issue : Issue) (field : String)
    (h : (∀ history ∈ issue.Changelog.Histories, ∀ item ∈ history.Items,
        ¬(item.Field = "status" ∧ item.FromString = "Open" ∧
          item.ToString = "Closed")) ∨
      (issue.Fields.Priority.ID ≠ "1" ∧ issue.Fields.Priority.ID ≠ "2")) :
    WordinessAnalysis (xs ++ issue :: ys) field =
        WordinessAnalysis (xs ++ ys) field ∧
      AttachmentsAnalysis (xs ++ issue :: ys) = AttachmentsAnalysis (xs ++ ys) ∧
      SentimentScoreAnalysis (xs ++ issue :: ys) =
        SentimentScoreAnalysis (xs ++ ys) := by
  have hg : ¬(timeToResolve issue > -1 ∧ isIssueHighPriority issue = true) := by
    rcases h with h | h
    · rw [timeToResolve_of_no_open_closed issue h]
      rintro ⟨h1, -⟩
      exact absurd h1 (by norm_num)
    · rintro ⟨-, h2⟩
      have : isIssueHighPriority issue = false := by
        simp [isIssueHighPriority, h.1, h.2]
      rw [this] at h2
      exact Bool.false_ne_true h2
  have hgs : ¬(timeToResolve issue > -1 ∧ isIssueHighPriority issue = true ∧
      issue.Sentiment.HasScore = true) := fun hc => hg ⟨hc.1, hc.2.1⟩
  exact ⟨wordiness_removal xs ys issue field hg,
    attachments_removal xs ys issue hg,
    sentiment_removal xs ys issue hgs⟩

/-- Witness for C2 at a concrete excluded issue (priority ID `"3"`). -/
theorem c2_witness :
    WordinessAnalysis ([issResolved] ++ issLowPriority :: []) "description" =
        WordinessAnalysis ([issResolved] ++ []) "description" ∧
      AttachmentsAnalysis ([issResolved] ++ issLowPriority :: []) =
        AttachmentsAnalysis ([issResolved] ++ []) ∧
      SentimentScoreAnalysis ([issResolved] ++ issLowPriority :: []) =
        SentimentScoreAnalysis ([issResolved] ++ []) :=
  c2_excluded_issue_contributes_nothing [issResolved] [] issLowPriority
    "description" (Or.inr (by decide))

/-! ## C9 -/

theorem goSplit_ne_nil (sep : Char) (l : List Char) : goSplit sep l ≠ [] := by
  cases l with
  | nil => simp [goSplit]
  | cons c rest =>
    simp only [goSplit]
    split
    · simp
    · split <;> simp

theorem goSplit_append (sep : Char) (A B : List Char) :
    goSplit sep (A ++ sep :: B) = goSplit sep A ++ goSplit sep B := by
  induction A with
  | nil => simp [goSplit]
  | cons a A ih =>
    by_cases ha : a = sep
    · subst ha
      simp [goSplit, ih]
    · simp only [List.cons_append, goSplit, if_neg ha, List.append_eq]
      rw [ih]
      cases hA : goSplit sep A with
      | nil => exact absurd hA (goSplit_ne_nil sep A)
      | cons h t => simp

/-- C9 (amended): a blank line contributes exactly one token (Go's
`strings.Split` of the empty trimmed line yields one empty field), so the
word count is additive over a newline join — appending a blank line
raises the count by exactly one — and `jira.CalculateNumberOfWords` is
the same function. -/
theorem c9_blank_line_counts_one_and_additive (a b : String) :
    calculateNumberOfWords (a ++ "\n" ++ b) =
        calculateNumberOfWords a + calculateNumberOfWords b ∧
      calculateNumberOfWords "" = 1 ∧
      CalculateNumberOfWords = calculateNumberOfWords := by
  refine ⟨?_, rfl, rfl⟩
  have hdata : (a ++ "\n" ++ b).toList = a.toList ++ '\n' :: b.toList := by
    show (a ++ "\n" ++ b).data = a.data ++ '\n' :: b.data
    rw [String.data_append, String.data_append, List.append_assoc]
    rfl
  unfold calculateNumberOfWords
  rw [hdata, goSplit_append, List.map_append, List.sum_append]

/-- Counterexample to C9 as stated: inserting a blank line changes the
count (the claim predicts both texts count 2). -/
theorem c9_counterexample :
    calculateNumberOfWords "a\n\nb" = 3 ∧ calculateNumberOfWords "a\nb" = 2 := by
  constructor <;> rfl

/-! ## C3 -/

/-- C3 (code bug): with an empty ticket population (every category has
zero eligible tickets) `plot.StepsToReproduce` computes `0/0` for both
category means — IEEE NaN, modelled `none` — and hands them to the
chart, with no "undefined" report; `plot.Attachments` panics on every
call, even on an eligible ticket with an attachment, because it assigns
to the nil map `result`. -/
theorem c3_zero_count_category_nan :
    StepsToReproduce [] =
        [("With Steps to Reproduce", none), ("Without Steps to Reproduce", none)] ∧
      Attachments [ticketWithImage] = none := by
  refine ⟨?_, rfl⟩
  simp [StepsToReproduce, stepsCounts, goDiv]

/-! ## C4 -/

/-- C4 (code bug): on a filename without any `'.'`,
`jira.GetAttachmentType` slices from index `-1` and panics (`none`),
while the `analyze` copy of the classifier is total and yields the
default `Code` category. -/
theorem c4_jira_classifier_panics_on_dotless :
    GetAttachmentType "README" = none ∧
      getAttachmentType "README" = AttachmentType.Code := by
  constructor <;> rfl

/-! ## C5 -/

theorem lastIndexOf_ge_neg_one (c : Char) (l : List Char) :
    lastIndexOf c l ≥ -1 := by
  induction l with
  | nil => simp [lastIndexOf]
  | cons a rest ih =>
    simp only [lastIndexOf]
    split
    · omega
    · split <;> omega

theorem lastIndexOf_lt_zero_iff (c : Char) (l : List Char) :
    lastIndexOf c l < 0 ↔ c ∉ l := by
  induction l with
  | nil => simp [lastIndexOf]
  | cons a rest ih =>
    have hb := lastIndexOf_ge_neg_one c rest
    simp only [lastIndexOf, List.mem_cons]
    by_cases hr : lastIndexOf c rest ≥ 0
    · rw [if_pos hr]
      have hmem : c ∈ rest := by
        by_contra hn
        have := ih.mpr hn
        omega
      constructor
      · intro h
        exact absurd h (by omega)
      · intro h
        exact absurd (Or.inr hmem) h
    · rw [if_neg hr]
      have hnm : c ∉ rest := ih.mp (by omega)
      by_cases hac : a = c
      · rw [if_pos hac]
        subst hac
        simp
      · rw [if_neg hac]
        constructor
        · rintro - (h | h)
          · exact hac h.symm
          · exact hnm h
        · intro _
          omega

theorem goSplit_of_not_mem (c : Char) (l : List Char) (h : c ∉ l) :
    goSplit c l = [l] := by
  induction l with
  | nil => rfl
  | cons a rest ih =>
    have ha : ¬a = c := fun hh => h (by simp [hh])
    have hr : c ∉ rest := fun hh => h (List.mem_cons_of_mem a hh)
    simp only [goSplit, if_neg ha, ih hr]

theorem goSplit_singleton_not_mem (c : Char) (l : List Char) (h1 : List Char)
    (h : goSplit c l = [h1]) : c ∉ l := by
  induction l generalizing h1 with
  | nil => simp
  | cons a rest ih =>
    simp only [goSplit] at h
    by_cases hac : a = c
    · rw [if_pos hac] at h
      cases hg : goSplit c rest with
      | nil => exact absurd hg (goSplit_ne_nil c rest)
      | cons x xs => rw [hg] at h; simp at h
    · rw [if_neg hac] at h
      cases hg : goSplit c rest with
      | nil => exact absurd hg (goSplit_ne_nil c rest)
      | cons x xs =>
        rw [hg] at h
        simp only [List.cons.injEq] at h
        obtain ⟨-, hxs⟩ := h
        subst hxs
        intro hm
        rcases List.mem_cons.mp hm with hm | hm
        · exact hac hm.symm
        · exact ih x hg hm

theorem getLastD_of_ne_nil {α : Type} (t : List α) (ht : t ≠ []) (x y : α) :
    t.getLastD x = t.getLastD y := by
  cases t with
  | nil => exact absurd rfl ht
  | cons t0 ts => rw [List.getLastD_cons, List.getLastD_cons]

theorem drop_lastIndexOf_succ (c : Char) (l : List Char) :
    l.drop (lastIndexOf c l + 1).toNat = (goSplit c l).getLastD [] := by
  induction l with
  | nil => rfl
  | cons a rest ih =>
    have hb := lastIndexOf_ge_neg_one c rest
    by_cases hr : lastIndexOf c rest ≥ 0
    · have hidx : lastIndexOf c (a :: rest) = lastIndexOf c rest + 1 := by
        simp only [lastIndexOf]
        rw [if_pos hr]
      rw [hidx]
      have htn : (lastIndexOf c rest + 1 + 1).toNat =
          (lastIndexOf c rest + 1).toNat + 1 := by omega
      rw [htn, List.drop_succ_cons, ih]
      have hmem : c ∈ rest := by
        by_contra hn
        exact absurd ((lastIndexOf_lt_zero_iff c rest).mpr hn) (by omega)
      by_cases hac : a = c
      · simp only [goSplit, if_pos hac]
        rw [List.getLastD_cons]
      · simp only [goSplit, if_neg hac]
        cases hg : goSplit c rest with
        | nil => exact absurd hg (goSplit_ne_nil c rest)
        | cons x xs =>
          cases xs with
          | nil => exact absurd (goSplit_singleton_not_mem c rest x hg) (fun h => h hmem)
          | cons x1 xs1 =>
            simp [List.getLastD_cons]
    · have hrv : lastIndexOf c rest = -1 := by omega
      have hnm : c ∉ rest := (lastIndexOf_lt_zero_iff c rest).mp (by omega)
      by_cases hac : a = c
      · have hidx : lastIndexOf c (a :: rest) = 0 := by
          simp only [lastIndexOf]
          rw [if_neg hr, if_pos hac]
        rw [hidx]
        have h1 : ((0 : Int) + 1).toNat = 1 := rfl
        rw [h1, List.drop_one, List.tail_cons]
        simp only [goSplit, if_pos hac, List.getLastD_cons]
        rw [goSplit_of_not_mem c rest hnm]
        rfl
      · have hidx : lastIndexOf c (a :: rest) = -1 := by
          simp only [lastIndexOf]
          rw [if_neg hr, if_neg hac]
        rw [hidx]
        simp only [goSplit, if_neg hac]
        rw [goSplit_of_not_mem c rest hnm]
        rfl

theorem extSwitch_eq_specClassify (e : String) :
    extSwitch e = specClassify e := by
  by_cases hT : e = "md" ∨ e = "txt" ∨ e = "pdf"
  · rcases hT with h | h | h <;> subst h <;> rfl
  · by_cases hI : e = "png" ∨ e = "jpg" ∨ e = "jpeg" ∨ e = "gif" ∨ e = "bmp"
    · rcases hI with h | h | h | h | h <;> subst h <;> rfl
    · by_cases hV : e = "mp4" ∨ e = "avi" ∨ e = "mkv"
      · rcases hV with h | h | h <;> subst h <;> rfl
      · have hT' := hT
        have hI' := hI
        have hV' := hV
        push_neg at hT' hI' hV'
        unfold extSwitch specClassify
        rw [if_neg hT'.1, if_neg hT'.2.1, if_neg hT'.2.2, if_neg hI'.1,
          if_neg hI'.2.1, if_neg hI'.2.2.1, if_neg hI'.2.2.2.1,
          if_neg hI'.2.2.2.2, if_neg hV'.1, if_neg hV'.2.1, if_neg hV'.2.2,
          if_neg hT, if_neg hI, if_neg hV]

theorem drop_lastIndexOf_mem (c : Char) (l : List Char) (h : c ∈ l) :
    ∃ t, l.drop (lastIndexOf c l).toNat = c :: t := by
  induction l with
  | nil => exact absurd h (List.not_mem_nil c)
  | cons a rest ih =>
    by_cases hr : lastIndexOf c rest ≥ 0
    · have hmem : c ∈ rest := by
        by_contra hn
        exact absurd ((lastIndexOf_lt_zero_iff c rest).mpr hn) (by omega)
      obtain ⟨t, ht⟩ := ih hmem
      refine ⟨t, ?_⟩
      have hidx : lastIndexOf c (a :: rest) = lastIndexOf c rest + 1 := by
        simp only [lastIndexOf]
        rw [if_pos hr]
      rw [hidx, show (lastIndexOf c rest + 1).toNat = (lastIndexOf c rest).toNat + 1 by omega,
        List.drop_succ_cons, ht]
    · have hnm : c ∉ rest := (lastIndexOf_lt_zero_iff c rest).mp (by omega)
      have hac : a = c := by
        rcases List.mem_cons.mp h with hm | hm
        · exact hm.symm
        · exact absurd hm hnm
      have hidx : lastIndexOf c (a :: rest) = 0 := by
        simp only [lastIndexOf]
        rw [if_neg hr, if_pos hac]
      exact ⟨rest, by rw [hidx, Int.toNat_zero, List.drop_zero, hac]⟩

theorem extSwitch_dotted (t : List Char) : extSwitch ⟨'.' :: t⟩ = .Code := by
  have hne : ∀ u : List Char, ∀ d : Char, d ≠ '.' →
      (⟨'.' :: t⟩ : String) ≠ ⟨d :: u⟩ := by
    intro u d hd he
    injection he with hdata
    injection hdata with h1 h2
    exact hd h1.symm
  unfold extSwitch
  rw [if_neg (hne ['d'] 'm' (by decide)), if_neg (hne ['x', 't'] 't' (by decide)),
    if_neg (hne ['d', 'f'] 'p' (by decide)), if_neg (hne ['n', 'g'] 'p' (by decide)),
    if_neg (hne ['p', 'g'] 'j' (by decide)), if_neg (hne ['p', 'e', 'g'] 'j' (by decide)),
    if_neg (hne ['i', 'f'] 'g' (by decide)), if_neg (hne ['m', 'p'] 'b' (by decide)),
    if_neg (hne ['p', '4'] 'm' (by decide)), if_neg (hne ['v', 'i'] 'a' (by decide)),
    if_neg (hne ['k', 'v'] 'm' (by decide))]

/-- C5 (amended): `analyze.getAttachmentType` classifies by an exact,
case-sensitive comparison of the substring after the last `'.'` — the
whole filename when it has no dot — against the recognised extensions
(md/txt/pdf → Text, png/jpg/jpeg/gif/bmp → Image, mp4/avi/mkv → Video,
default Code); `jira.GetAttachmentType` keeps the dot in the compared
substring, so every dotted filename — recognised extension or not — maps
to `Code`. -/
theorem c5_classifier_case_sensitive (s : String) :
    getAttachmentType s = specClassify (afterLastDot s) ∧
      ('.' ∈ s.toList → GetAttachmentType s = some AttachmentType.Code) := by
  constructor
  · show extSwitch ⟨s.toList.drop (lastIndexOf '.' s.toList + 1).toNat⟩ = _
    rw [drop_lastIndexOf_succ]
    exact extSwitch_eq_specClassify _
  · intro hdot
    have hge : ¬lastIndexOf '.' s.toList < 0 := by
      rw [lastIndexOf_lt_zero_iff]
      exact fun hn => hn hdot
    obtain ⟨t, ht⟩ := drop_lastIndexOf_mem '.' s.toList hdot
    show (if lastIndexOf '.' s.toList < 0 then none else _) = _
    rw [if_neg hge]
    simp only [ht]
    rw [extSwitch_dotted]

/-- Witness for C5 at the dotted filename `"a.png"`. -/
theorem c5_witness :
    getAttachmentType "a.png" = specClassify (afterLastDot "a.png") ∧
      GetAttachmentType "a.png" = some AttachmentType.Code :=
  ⟨(c5_classifier_case_sensitive "a.png").1,
    (c5_classifier_case_sensitive "a.png").2 (by decide)⟩

/-- Counterexample to C5 as stated: the upper-case extension `PNG` is not
recognised (no lower-casing), a bare `"png"` with no dot is classified
`Image` rather than the default, and `jira.GetAttachmentType` maps even
`"b.png"` to `Code`. -/
theorem c5_counterexample :
    getAttachmentType "a.PNG" = AttachmentType.Code ∧
      getAttachmentType "png" = AttachmentType.Image ∧
      GetAttachmentType "b.png" = some AttachmentType.Code := by
  exact ⟨rfl, rfl, rfl⟩

/-! ## C8 -/

theorem eligibleB_iff (issue : Issue) :
    eligibleB issue = true ↔
      (timeToResolve issue > -1 ∧ isIssueHighPriority issue = true) := by
  simp [eligibleB]

theorem eligibleScoredB_iff (issue : Issue) :
    eligibleScoredB issue = true ↔
      (timeToResolve issue > -1 ∧ isIssueHighPriority issue = true ∧
        issue.Sentiment.HasScore = true) := by
  simp [eligibleScoredB, and_assoc]

theorem wordiness_description_spec (issues : List Issue) :
    WordinessAnalysis issues "description" =
      ((issues.filter eligibleB).map descWordCount,
        (issues.filter eligibleB).map timeToResolve) := by
  induction issues with
  | nil => rfl
  | cons issue rest ih =>
    by_cases hg : timeToResolve issue > -1 ∧ isIssueHighPriority issue = true
    · simp only [WordinessAnalysis, ih, List.filter_cons,
        if_pos ((eligibleB_iff issue).mpr hg), if_pos hg, List.map_cons]
      simp [descWordCount]
    · simp only [WordinessAnalysis, ih, List.filter_cons, if_neg hg,
        if_neg (fun hb => hg ((eligibleB_iff issue).mp hb))]

theorem wordiness_summary_spec (issues : List Issue) :
    WordinessAnalysis issues "summary" =
      ((issues.filter eligibleB).map summaryWordCount,
        (issues.filter eligibleB).map timeToResolve) := by
  induction issues with
  | nil => rfl
  | cons issue rest ih =>
    by_cases hg : timeToResolve issue > -1 ∧ isIssueHighPriority issue = true
    · simp only [WordinessAnalysis, ih, List.filter_cons,
        if_pos ((eligibleB_iff issue).mpr hg), if_pos hg, List.map_cons]
      simp [summaryWordCount]
    · simp only [WordinessAnalysis, ih, List.filter_cons, if_neg hg,
        if_neg (fun hb => hg ((eligibleB_iff issue).mp hb))]

theorem wordiness_comment_spec (issues : List Issue) :
    WordinessAnalysis issues "comment" =
      ((issues.filter eligibleB).map commentWordCount,
        (issues.filter eligibleB).map timeToResolve) := by
  induction issues with
  | nil => rfl
  | cons issue rest ih =>
    by_cases hg : timeToResolve issue > -1 ∧ isIssueHighPriority issue = true
    · simp only [WordinessAnalysis, ih, List.filter_cons,
        if_pos ((eligibleB_iff issue).mpr hg), if_pos hg, List.map_cons]
      simp [commentWordCount]
    · simp only [WordinessAnalysis, ih, List.filter_cons, if_neg hg,
        if_neg (fun hb => hg ((eligibleB_iff issue).mp hb))]

theorem wordiness_unsupported_spec (issues : List Issue) (field : String)
    (h1 : field ≠ "description") (h2 : field ≠ "summary")
    (h3 : field ≠ "comment") :
    WordinessAnalysis issues field =
      ([], (issues.filter eligibleB).map timeToResolve) := by
  induction issues with
  | nil => rfl
  | cons issue rest ih =>
    by_cases hg : timeToResolve issue > -1 ∧ isIssueHighPriority issue = true
    · simp only [WordinessAnalysis, ih, List.filter_cons,
        if_pos ((eligibleB_iff issue).mpr hg), if_pos hg, if_neg h1,
        if_neg h2, if_neg h3, List.map_cons]
    · simp only [WordinessAnalysis, ih, List.filter_cons, if_neg hg,
        if_neg (fun hb => hg ((eligibleB_iff issue).mp hb))]

theorem sentiment_spec (issues : List Issue) :
    SentimentScoreAnalysis issues =
      ((issues.filter eligibleScoredB).map fun issue => issue.Sentiment.Score,
        (issues.filter eligibleScoredB).map timeToResolve) := by
  induction issues with
  | nil => rfl
  | cons issue rest ih =>
    by_cases hg : timeToResolve issue > -1 ∧ isIssueHighPriority issue = true ∧
        issue.Sentiment.HasScore = true
    · simp only [SentimentScoreAnalysis, ih, List.filter_cons,
        if_pos ((eligibleScoredB_iff issue).mpr hg), if_pos hg, List.map_cons]
    · simp only [SentimentScoreAnalysis, ih, List.filter_cons, if_neg hg,
        if_neg (fun hb => hg ((eligibleScoredB_iff issue).mp hb))]

/-- C8 (amended): for the three supported field selectors the two
sequences of `WordinessAnalysis` are the metric and resolution time of
the eligible issues in order — same length, index-aligned — and likewise
`SentimentScoreAnalysis` unconditionally; but for any other selector
string the word-count series stays empty while the time series still
receives one entry per eligible issue, so the two are not the same
length. -/
theorem c8_aligned_series (issues : List Issue) :
    WordinessAnalysis issues "description" =
        ((issues.filter eligibleB).map descWordCount,
          (issues.filter eligibleB).map timeToResolve) ∧
      WordinessAnalysis issues "summary" =
        ((issues.filter eligibleB).map summaryWordCount,
          (issues.filter eligibleB).map timeToResolve) ∧
      WordinessAnalysis issues "comment" =
        ((issues.filter eligibleB).map commentWordCount,
          (issues.filter eligibleB).map timeToResolve) ∧
      (∀ field, field ≠ "description" → field ≠ "summary" →
        field ≠ "comment" →
        WordinessAnalysis issues field =
          ([], (issues.filter eligibleB).map timeToResolve)) ∧
      SentimentScoreAnalysis issues =
        ((issues.filter eligibleScoredB).map fun issue => issue.Sentiment.Score,
          (issues.filter eligibleScoredB).map timeToResolve) :=
  ⟨wordiness_description_spec issues, wordiness_summary_spec issues,
    wordiness_comment_spec issues,
    fun field h1 h2 h3 => wordiness_unsupported_spec issues field h1 h2 h3,
    sentiment_spec issues⟩

/-- Witness for C8 at the unsupported selector `"foo"`. -/
theorem c8_witness :
    WordinessAnalysis [issResolved] "foo" =
      ([], ([issResolved].filter eligibleB).map timeToResolve) :=
  (c8_aligned_series [issResolved]).2.2.2.1 "foo" (by decide) (by decide)
    (by decide)

/-- Counterexample to C8 as stated: with the selector `"foo"` and one
eligible issue the metric series is empty while the time series has one
entry — the two returned sequences differ in length. -/
theorem c8_counterexample :
    (WordinessAnalysis [issResolved] "foo").1.length = 0 ∧
      (WordinessAnalysis [issResolved] "foo").2.length = 1 := by
  have h := wordiness_unsupported_spec [issResolved] "foo"
    (by decide) (by decide) (by decide)
  have he : eligibleB issResolved = true := by
    rw [eligibleB_iff]
    refine ⟨?_, by decide⟩
    have h5 : timeToResolve issResolved = 5 := by
      show calculateTimeDifference 18000000000000 0 = 5
      norm_num [calculateTimeDifference]
    rw [h5]
    norm_num
  rw [h]
  simp [he]

/-! ## Regular-expression matcher correctness

The derivative matcher agrees with the declarative language semantics;
the lemma structure follows the standard Brzozowski-derivative
correctness argument. -/

theorem RE.fail_rmatch (s : List Char) : RE.fail.rmatch s = false := by
  induction s with
  | nil => rfl
  | cons c rest ih =>
    show (RE.fail.deriv c).rmatch rest = false
    exact ih

theorem RE.eps_rmatch_iff (s : List Char) :
    RE.eps.rmatch s = true ↔ s = [] := by
  cases s with
  | nil => simp [RE.rmatch, RE.nullable]
  | cons c rest =>
    show (RE.eps.deriv c).rmatch rest = true ↔ _
    rw [show RE.eps.deriv c = RE.fail from rfl, RE.fail_rmatch]
    simp

theorem RE.cls_rmatch_iff (k : CharClass) (s : List Char) :
    (RE.cls k).rmatch s = true ↔ ∃ c, s = [c] ∧ k.denote c = true := by
  cases s with
  | nil => simp [RE.rmatch, RE.nullable]
  | cons c rest =>
    show ((RE.cls k).deriv c).rmatch rest = true ↔ _
    rw [show (RE.cls k).deriv c =
      (if k.denote c then RE.eps else RE.fail) from rfl]
    by_cases h : k.denote c = true
    · rw [if_pos h, RE.eps_rmatch_iff]
      constructor
      · rintro rfl
        exact ⟨c, rfl, h⟩
      · rintro ⟨c', heq, hc'⟩
        exact (List.cons_eq_cons.mp heq).2
    · rw [if_neg h, RE.fail_rmatch]
      simp only [Bool.false_eq_true, false_iff, not_exists]
      rintro c' ⟨heq, hc'⟩
      obtain ⟨rfl, -⟩ := List.cons_eq_cons.mp heq
      exact h hc'

theorem RE.alt_rmatch_iff (a b : RE) (s : List Char) :
    (RE.alt a b).rmatch s = true ↔
      a.rmatch s = true ∨ b.rmatch s = true := by
  induction s generalizing a b with
  | nil => simp [RE.rmatch, RE.nullable, Bool.or_eq_true]
  | cons c rest ih =>
    show ((RE.alt a b).deriv c).rmatch rest = true ↔ _
    rw [show (RE.alt a b).deriv c = RE.alt (a.deriv c) (b.deriv c) from rfl]
    exact ih _ _

theorem RE.seq_rmatch_iff (a b : RE) (s : List Char) :
    (RE.seq a b).rmatch s = true ↔
      ∃ u v, s = u ++ v ∧ a.rmatch u = true ∧ b.rmatch v = true := by
  induction s generalizing a b with
  | nil =>
    show (a.nullable && b.nullable) = true ↔ _
    rw [Bool.and_eq_true]
    constructor
    · rintro ⟨ha, hb⟩
      exact ⟨[], [], rfl, ha, hb⟩
    · rintro ⟨u, v, huv, ha, hb⟩
      obtain ⟨rfl, rfl⟩ := List.append_eq_nil.mp huv.symm
      exact ⟨ha, hb⟩
  | cons c rest ih =>
    show ((RE.seq a b).deriv c).rmatch rest = true ↔ _
    rw [show (RE.seq a b).deriv c =
      (if a.nullable then RE.alt (RE.seq (a.deriv c) b) (b.deriv c)
       else RE.seq (a.deriv c) b) from rfl]
    by_cases hn : a.nullable = true
    · rw [if_pos hn, RE.alt_rmatch_iff, ih]
      constructor
      · rintro (⟨u, v, huv, ha, hb⟩ | hb)
        · exact ⟨c :: u, v, by rw [List.cons_append, ← huv], ha, hb⟩
        · exact ⟨[], c :: rest, rfl, hn, hb⟩
      · rintro ⟨u, v, huv, ha, hb⟩
        cases u with
        | nil =>
          right
          simp only [List.nil_append] at huv
          rwa [← huv] at hb
        | cons u0 us =>
          left
          rw [List.cons_append] at huv
          obtain ⟨rfl, huv2⟩ := List.cons_eq_cons.mp huv
          exact ⟨us, v, huv2, by rwa [RE.rmatch] at ha, hb⟩
    · rw [if_neg hn, ih]
      constructor
      · rintro ⟨u, v, huv, ha, hb⟩
        exact ⟨c :: u, v, by rw [List.cons_append, ← huv], ha, hb⟩
      · rintro ⟨u, v, huv, ha, hb⟩
        cases u with
        | nil => exact absurd ha hn
        | cons u0 us =>
          rw [List.cons_append] at huv
          obtain ⟨rfl, huv2⟩ := List.cons_eq_cons.mp huv
          exact ⟨us, v, huv2, by rwa [RE.rmatch] at ha, hb⟩

theorem RE.star_rmatch_iff (a : RE) : ∀ s : List Char,
    (RE.star a).rmatch s = true ↔
      ∃ parts : List (List Char), s = parts.flatten ∧
        ∀ t ∈ parts, t ≠ [] ∧ a.rmatch t = true := fun s => by
  have IH := fun t (_h : t.length < s.length) => RE.star_rmatch_iff a t
  constructor
  · cases s with
    | nil =>
      intro _
      exact ⟨[], rfl, by simp⟩
    | cons c rest =>
      rw [show (RE.star a).rmatch (c :: rest) =
          ((RE.star a).deriv c).rmatch rest from rfl,
        show (RE.star a).deriv c = RE.seq (a.deriv c) (RE.star a) from rfl,
        RE.seq_rmatch_iff]
      rintro ⟨u, v, huv, ha, hv⟩
      have hlen : v.length < (c :: rest).length := by
        subst huv
        simp only [List.length_cons, List.length_append]
        omega
      rw [IH v hlen] at hv
      obtain ⟨parts, hparts, hall⟩ := hv
      refine ⟨(c :: u) :: parts, ?_, ?_⟩
      · simp [huv, hparts]
      · intro t ht
        rcases List.mem_cons.mp ht with rfl | ht
        · exact ⟨by simp, by rw [RE.rmatch]; exact ha⟩
        · exact hall t ht
  · rintro ⟨parts, hparts, hall⟩
    cases s with
    | nil => rfl
    | cons c rest =>
      rw [show (RE.star a).rmatch (c :: rest) =
          ((RE.star a).deriv c).rmatch rest from rfl,
        show (RE.star a).deriv c = RE.seq (a.deriv c) (RE.star a) from rfl,
        RE.seq_rmatch_iff]
      cases parts with
      | nil => simp at hparts
      | cons p ps =>
        obtain ⟨hpne, hpa⟩ := hall p (List.mem_cons_self p ps)
        cases p with
        | nil => exact absurd rfl hpne
        | cons p0 pt =>
          rw [List.flatten_cons, List.cons_append] at hparts
          obtain ⟨rfl, hrest⟩ := List.cons_eq_cons.mp hparts
          have hlen2 : ps.flatten.length < (c :: rest).length := by
            rw [List.length_cons, hrest, List.length_append]
            omega
          refine ⟨pt, ps.flatten, hrest, by rwa [RE.rmatch] at hpa, ?_⟩
          rw [IH ps.flatten hlen2]
          exact ⟨ps, rfl, fun t ht => hall t (List.mem_cons_of_mem _ ht)⟩
termination_by s => s.length

theorem RE.rmatch_iff_lang (r : RE) : ∀ s : List Char,
    r.rmatch s = true ↔ r.Lang s := by
  induction r with
  | eps =>
    intro s
    rw [RE.eps_rmatch_iff]
    exact Iff.rfl
  | cls k =>
    intro s
    rw [RE.cls_rmatch_iff]
    exact Iff.rfl
  | seq a b iha ihb =>
    intro s
    rw [RE.seq_rmatch_iff]
    show _ ↔ ∃ u v, s = u ++ v ∧ a.Lang u ∧ b.Lang v
    constructor
    · rintro ⟨u, v, huv, ha, hb⟩
      exact ⟨u, v, huv, (iha u).mp ha, (ihb v).mp hb⟩
    · rintro ⟨u, v, huv, ha, hb⟩
      exact ⟨u, v, huv, (iha u).mpr ha, (ihb v).mpr hb⟩
  | alt a b iha ihb =>
    intro s
    rw [RE.alt_rmatch_iff]
    show _ ↔ a.Lang s ∨ b.Lang s
    rw [iha s, ihb s]
  | star a ih =>
    intro s
    rw [RE.star_rmatch_iff]
    show _ ↔ ∃ parts : List (List Char), s = parts.flatten ∧
      ∀ t ∈ parts, t ≠ [] ∧ a.Lang t
    constructor
    · rintro ⟨parts, hp, hall⟩
      exact ⟨parts, hp, fun t ht =>
        ⟨(hall t ht).1, (ih t).mp (hall t ht).2⟩⟩
    · rintro ⟨parts, hp, hall⟩
      exact ⟨parts, hp, fun t ht =>
        ⟨(hall t ht).1, (ih t).mpr (hall t ht).2⟩⟩

theorem RE.prefixMatch_iff (r : RE) (s : List Char) :
    r.prefixMatch s = true ↔
      ∃ u v, s = u ++ v ∧ r.rmatch u = true := by
  induction s generalizing r with
  | nil =>
    show r.nullable = true ↔ _
    constructor
    · intro h
      exact ⟨[], [], rfl, h⟩
    · rintro ⟨u, v, huv, hu⟩
      obtain ⟨rfl, rfl⟩ := List.append_eq_nil.mp huv.symm
      exact hu
  | cons c rest ih =>
    show (r.nullable || (r.deriv c).prefixMatch rest) = true ↔ _
    rw [Bool.or_eq_true]
    constructor
    · rintro (h | h)
      · exact ⟨[], c :: rest, rfl, h⟩
      · obtain ⟨u, v, huv, hu⟩ := (ih _).mp h
        exact ⟨c :: u, v, by rw [List.cons_append, ← huv],
          by rw [RE.rmatch]; exact hu⟩
    · rintro ⟨u, v, huv, hu⟩
      cases u with
      | nil =>
        left
        exact hu
      | cons u0 us =>
        right
        rw [List.cons_append] at huv
        obtain ⟨rfl, huv2⟩ := List.cons_eq_cons.mp huv
        exact (ih _).mpr ⟨us, v, huv2, by rwa [RE.rmatch] at hu⟩

theorem RE.searchAnywhere_iff (r : RE) (s : List Char) :
    r.searchAnywhere s = true ↔
      ∃ p u v, s = p ++ u ++ v ∧ r.rmatch u = true := by
  induction s with
  | nil =>
    show r.nullable = true ↔ _
    constructor
    · intro h
      exact ⟨[], [], [], rfl, h⟩
    · rintro ⟨p, u, v, huv, hu⟩
      obtain ⟨h1, rfl⟩ := List.append_eq_nil.mp huv.symm
      obtain ⟨rfl, rfl⟩ := List.append_eq_nil.mp h1
      exact hu
  | cons c rest ih =>
    show (r.prefixMatch (c :: rest) || r.searchAnywhere rest) = true ↔ _
    rw [Bool.or_eq_true, RE.prefixMatch_iff, ih]
    constructor
    · rintro (⟨u, v, huv, hu⟩ | ⟨p, u, v, huv, hu⟩)
      · exact ⟨[], u, v, by simpa using huv, hu⟩
      · exact ⟨c :: p, u, v, by rw [huv]; simp, hu⟩
    · rintro ⟨p, u, v, huv, hu⟩
      cases p with
      | nil =>
        left
        exact ⟨u, v, by simpa using huv, hu⟩
      | cons p0 ps =>
        right
        simp only [List.cons_append, List.append_assoc] at huv
        obtain ⟨rfl, huv2⟩ := List.cons_eq_cons.mp huv
        exact ⟨ps, u, v, by rw [huv2, List.append_assoc], hu⟩

theorem RE.prefixMatch_iff_lang (r : RE) (s : List Char) :
    r.prefixMatch s = true ↔ ∃ u v, s = u ++ v ∧ r.Lang u := by
  rw [RE.prefixMatch_iff]
  constructor
  · rintro ⟨u, v, h, hu⟩
    exact ⟨u, v, h, (RE.rmatch_iff_lang r u).mp hu⟩
  · rintro ⟨u, v, h, hu⟩
    exact ⟨u, v, h, (RE.rmatch_iff_lang r u).mpr hu⟩

theorem RE.searchAnywhere_iff_lang (r : RE) (s : List Char) :
    r.searchAnywhere s = true ↔ ∃ p u v, s = p ++ u ++ v ∧ r.Lang u := by
  rw [RE.searchAnywhere_iff]
  constructor
  · rintro ⟨p, u, v, h, hu⟩
    exact ⟨p, u, v, h, (RE.rmatch_iff_lang r u).mp hu⟩
  · rintro ⟨p, u, v, h, hu⟩
    exact ⟨p, u, v, h, (RE.rmatch_iff_lang r u).mpr hu⟩

/-! ## Languages of the two compiled patterns -/

theorem contains_iff_mem (l : List Char) (c : Char) :
    l.contains c = true ↔ c ∈ l := by
  simp [List.contains]

theorem RE.lang_star_cls (k : CharClass) (w : List Char) :
    (RE.star (RE.cls k)).Lang w ↔ ∀ c ∈ w, k.denote c = true := by
  constructor
  · rintro ⟨parts, rfl, hall⟩
    intro c hc
    rw [List.mem_flatten] at hc
    obtain ⟨part, hp, hcp⟩ := hc
    obtain ⟨-, hlang⟩ := hall part hp
    obtain ⟨c', rfl, hd⟩ := hlang
    rw [List.mem_singleton] at hcp
    rw [hcp]
    exact hd
  · intro h
    have hflat : ∀ v : List Char, (v.map (fun c => [c])).flatten = v := by
      intro v
      induction v with
      | nil => rfl
      | cons c cs ih =>
        simp only [List.map_cons, List.flatten_cons, ih, List.singleton_append]
    refine ⟨w.map (fun c => [c]), (hflat w).symm, ?_⟩
    · intro t ht
      rw [List.mem_map] at ht
      obtain ⟨c, hc, rfl⟩ := ht
      exact ⟨by simp, c, rfl, h c hc⟩

theorem RE.lang_reChar (c : Char) (w : List Char) :
    (reChar c).Lang w ↔ w = [c] := by
  show (∃ c', w = [c'] ∧ (CharClass.pos [c]).denote c' = true) ↔ _
  constructor
  · rintro ⟨c', rfl, hd⟩
    have : c' = c := by
      have := (contains_iff_mem [c] c').mp hd
      simpa using this
    rw [this]
  · rintro rfl
    exact ⟨c, rfl, by simp [CharClass.denote]⟩

theorem reSpc_lang_iff (w : List Char) :
    reSpc.Lang w ↔ ∀ c ∈ w, c ∈ spaceChars := by
  rw [show reSpc = RE.star (RE.cls (.pos spaceChars)) from rfl,
    RE.lang_star_cls]
  constructor <;> intro h c hc <;> have hd := h c hc
  · exact (contains_iff_mem spaceChars c).mp hd
  · exact (contains_iff_mem spaceChars c).mpr hd

theorem star_reAny_lang_iff (w : List Char) :
    (RE.star reAny).Lang w ↔ '\n' ∉ w := by
  rw [show reAny = RE.cls (.neg ['\n']) from rfl, RE.lang_star_cls]
  constructor
  · intro h hmem
    have := h '\n' hmem
    simp [CharClass.denote] at this
  · intro h c hc
    simp only [CharClass.denote, Bool.not_eq_true']
    rw [show (['\n'].contains c = false) ↔ ¬(['\n'].contains c = true) by simp]
    rw [contains_iff_mem]
    simp only [List.mem_singleton]
    rintro rfl
    exact h hc

theorem reAnyPlus_lang_iff (w : List Char) :
    reAnyPlus.Lang w ↔ w ≠ [] ∧ '\n' ∉ w := by
  show (∃ u v, w = u ++ v ∧ reAny.Lang u ∧ (RE.star reAny).Lang v) ↔ _
  constructor
  · rintro ⟨u, v, rfl, hu, hv⟩
    obtain ⟨c, rfl, hd⟩ := hu
    rw [star_reAny_lang_iff] at hv
    have hc : c ≠ '\n' := by
      simp only [CharClass.denote, Bool.not_eq_true'] at hd
      intro hh
      subst hh
      simp at hd
    refine ⟨by simp, ?_⟩
    simp only [List.singleton_append, List.mem_cons, not_or]
    exact ⟨fun hh => hc hh.symm, hv⟩
  · rintro ⟨hne, hnl⟩
    cases w with
    | nil => exact absurd rfl hne
    | cons c cs =>
      have hc : ¬c = '\n' := fun hh => hnl (hh ▸ List.mem_cons_self c cs)
      refine ⟨[c], cs, rfl, ⟨c, rfl, ?_⟩, ?_⟩
      · simp only [CharClass.denote, Bool.not_eq_true']
        rw [show (['\n'].contains c = false) ↔ ¬(['\n'].contains c = true) by simp]
        rw [contains_iff_mem]
        simp only [List.mem_singleton]
        exact fun hh => hc hh
      · rw [star_reAny_lang_iff]
        exact fun hh => hnl (List.mem_cons_of_mem c hh)

theorem bulletGroup_lang_iff (w : List Char) :
    bulletGroup.Lang w ↔ ∃ ws r, (∀ c ∈ ws, c ∈ spaceChars) ∧ '\n' ∉ r ∧
      w = '\n' :: (ws ++ '*' :: r) := by
  show (∃ u v, w = u ++ v ∧ reNl.Lang u ∧
    (RE.seq reSpc (RE.seq (reChar '*') (RE.star reAny))).Lang v) ↔ _
  constructor
  · rintro ⟨u, v, rfl, hu, hv⟩
    obtain ⟨u2, v2, rfl, hu2, hv2⟩ := hv
    obtain ⟨u3, v3, rfl, hu3, hv3⟩ := hv2
    rw [show reNl = reChar '\n' from rfl, RE.lang_reChar] at hu
    rw [RE.lang_reChar] at hu3
    rw [reSpc_lang_iff] at hu2
    rw [star_reAny_lang_iff] at hv3
    subst hu
    subst hu3
    exact ⟨u2, v3, hu2, hv3, by simp⟩
  · rintro ⟨ws, r, hws, hr, rfl⟩
    refine ⟨['\n'], ws ++ '*' :: r, by simp, ?_, ?_⟩
    · rw [show reNl = reChar '\n' from rfl, RE.lang_reChar]
    · refine ⟨ws, '*' :: r, rfl, ?_, ?_⟩
      · rw [reSpc_lang_iff]
        exact hws
      · refine ⟨['*'], r, rfl, ?_, ?_⟩
        · rw [RE.lang_reChar]
        · rw [star_reAny_lang_iff]
          exact hr

theorem stepsRE_lang_iff (u : List Char) :
    stepsRE.Lang u ↔ ∃ g1 g2 tail : List Char,
      bulletGroup.Lang g1 ∧ bulletGroup.Lang g2 ∧
      (RE.star bulletGroup).Lang tail ∧ u = g1 ++ g2 ++ tail := by
  show (∃ u1 v1, u = u1 ++ v1 ∧ bulletGroup.Lang u1 ∧
    (RE.seq bulletGroup (RE.star bulletGroup)).Lang v1) ↔ _
  constructor
  · rintro ⟨u1, v1, rfl, h1, u2, v2, rfl, h2, h3⟩
    exact ⟨u1, u2, v2, h1, h2, h3, by rw [List.append_assoc]⟩
  · rintro ⟨g1, g2, tail, h1, h2, h3, rfl⟩
    exact ⟨g1, g2 ++ tail, by rw [List.append_assoc], h1, g2, tail, rfl, h2, h3⟩

theorem steps_search_iff (t : List Char) :
    stepsRE.searchAnywhere t = true ↔ StepsMatch t := by
  rw [RE.searchAnywhere_iff_lang]
  constructor
  · rintro ⟨p, u, v, rfl, hu⟩
    rw [stepsRE_lang_iff] at hu
    obtain ⟨g1, g2, tail, h1, h2, h3, rfl⟩ := hu
    rw [bulletGroup_lang_iff] at h1 h2
    obtain ⟨ws1, r1, hws1, hr1, rfl⟩ := h1
    obtain ⟨ws2, r2, hws2, hr2, rfl⟩ := h2
    refine ⟨p, ws1, r1, ws2, r2, tail ++ v, hws1, hws2, hr1, hr2, ?_⟩
    simp [List.append_assoc, List.cons_append]
  · rintro ⟨pre, ws1, r1, ws2, r2, post, hws1, hws2, hr1, hr2, rfl⟩
    refine ⟨pre,
      ('\n' :: (ws1 ++ '*' :: r1)) ++ ('\n' :: (ws2 ++ '*' :: r2)), post,
      ?_, ?_⟩
    · simp [List.append_assoc]
    · rw [stepsRE_lang_iff]
      refine ⟨'\n' :: (ws1 ++ '*' :: r1), '\n' :: (ws2 ++ '*' :: r2), [],
        ?_, ?_, ?_, by simp⟩
      · rw [bulletGroup_lang_iff]
        exact ⟨ws1, r1, hws1, hr1, rfl⟩
      · rw [bulletGroup_lang_iff]
        exact ⟨ws2, r2, hws2, hr2, rfl⟩
      · exact ⟨[], rfl, by simp⟩

theorem compile_steps : compileGo stepsExpr = some (false, stepsRE) := rfl

theorem containsRegex_steps (s : String) :
    containsRegex s stepsExpr = .ok (stepsRE.searchAnywhere s.toList) := by
  simp [containsRegex, compile_steps]

theorem hasStepsLoop_spec (cs : List Comment) :
    hasStepsLoop cs =
      .ok (cs.any fun comment => stepsRE.searchAnywhere comment.Body.toList) := by
  induction cs with
  | nil => rfl
  | cons c rest ih =>
    simp only [hasStepsLoop, containsRegex_steps, List.any_cons]
    cases hb : stepsRE.searchAnywhere c.Body.toList
    · simp [ih]
    · simp

theorem hasSteps_spec (issue : Issue) :
    HasStepsToReproduce issue =
      .ok (stepsRE.searchAnywhere issue.Fields.Description.toList ||
        (issue.Fields.Comments.Comments.any
          fun comment => stepsRE.searchAnywhere comment.Body.toList)) := by
  simp only [HasStepsToReproduce, containsRegex_steps]
  cases hb : stepsRE.searchAnywhere issue.Fields.Description.toList
  · simp [hasStepsLoop_spec]
  · simp

/-! ## C7 -/

/-- C7 (amended): `HasStepsToReproduce` never errs, and returns `true`
exactly when the description or some comment body contains two bullet
groups in direct succession, each consisting of a newline, optional
whitespace (possibly spanning blank lines) and a `'*'` with the rest of
its line.  Each bullet line must be preceded by a newline, so two bullet
lines at the very start of the text do not qualify, while bullet lines
separated by blank lines do. -/
theorem c7_steps_detector_characterisation (issue : Issue) :
    ∃ b, HasStepsToReproduce issue = .ok b ∧
      (b = true ↔ (StepsMatch issue.Fields.Description.toList ∨
        ∃ comment ∈ issue.Fields.Comments.Comments,
          StepsMatch comment.Body.toList)) := by
  refine ⟨_, hasSteps_spec issue, ?_⟩
  rw [Bool.or_eq_true, List.any_eq_true, steps_search_iff]
  constructor
  · rintro (h | ⟨c, hc, h⟩)
    · exact Or.inl h
    · exact Or.inr ⟨c, hc, (steps_search_iff _).mp h⟩
  · rintro (h | ⟨c, hc, h⟩)
    · exact Or.inl h
    · exact Or.inr ⟨c, hc, (steps_search_iff _).mpr h⟩

/-- Counterexample to C7 as stated: a description that consists of two
consecutive bullet lines starting at the very first character is not
detected — the pattern requires a newline before each bullet. -/
theorem c7_counterexample :
    HasStepsToReproduce issBulletsAtStart = .ok false := rfl

theorem lang_seq_iff (a b : RE) (w : List Char) :
    (RE.seq a b).Lang w ↔ ∃ u v, w = u ++ v ∧ a.Lang u ∧ b.Lang v := Iff.rfl

theorem reNl_lang_iff (w : List Char) : reNl.Lang w ↔ w = ['\n'] :=
  RE.lang_reChar '\n' w

theorem atGroup_lang_iff (w : List Char) :
    atGroup.Lang w ↔ IsAtGroup w := by
  show (RE.seq reSpc (RE.seq (reChar 'a') (RE.seq (reChar 't')
    (RE.seq reAnyPlus (RE.seq reSpc reNl))))).Lang w ↔ _
  simp only [lang_seq_iff, RE.lang_reChar, reSpc_lang_iff, reAnyPlus_lang_iff,
    reNl_lang_iff]
  constructor
  · rintro ⟨ws1, v1, rfl, hws1, ua, v2, rfl, rfl, ut, v3, rfl, rfl,
      r, v4, rfl, ⟨hrne, hrnl⟩, ws2, unl, rfl, hws2, rfl⟩
    exact ⟨ws1, r, ws2, hws1, hws2, hrne, hrnl, by simp⟩
  · rintro ⟨ws1, r, ws2, hws1, hws2, hrne, hrnl, rfl⟩
    exact ⟨ws1, 'a' :: 't' :: (r ++ (ws2 ++ ['\n'])), rfl, hws1,
      ['a'], 't' :: (r ++ (ws2 ++ ['\n'])), rfl, rfl,
      ['t'], r ++ (ws2 ++ ['\n']), rfl, rfl,
      r, ws2 ++ ['\n'], rfl, ⟨hrne, hrnl⟩,
      ws2, ['\n'], rfl, hws2, rfl⟩

theorem atPlus_lang_iff (w : List Char) :
    atPlus.Lang w ↔ ∃ gs : List (List Char), gs ≠ [] ∧
      (∀ g ∈ gs, IsAtGroup g) ∧ w = gs.flatten := by
  constructor
  · rintro ⟨u, v, rfl, hu, parts, rfl, hparts⟩
    refine ⟨u :: parts, by simp, ?_, by simp⟩
    intro g hg
    rcases List.mem_cons.mp hg with rfl | hg
    · exact (atGroup_lang_iff g).mp hu
    · exact (atGroup_lang_iff g).mp (hparts g hg).2
  · rintro ⟨gs, hne, hall, rfl⟩
    cases gs with
    | nil => exact absurd rfl hne
    | cons g gs' =>
      refine ⟨g, gs'.flatten, by simp,
        (atGroup_lang_iff g).mpr (hall g (List.mem_cons_self g gs')),
        gs', rfl, ?_⟩
      intro t ht
      refine ⟨?_, (atGroup_lang_iff t).mpr (hall t (List.mem_cons_of_mem g ht))⟩
      obtain ⟨ws1, r, ws2, -, -, -, -, rfl⟩ :=
        hall t (List.mem_cons_of_mem g ht)
      simp

theorem stackRE_lang_iff (u : List Char) :
    stackRE.Lang u ↔ ∃ a b tail : List Char, ∃ gs : List (List Char),
      a ≠ [] ∧ '\n' ∉ a ∧ b ≠ [] ∧ '\n' ∉ b ∧
      gs ≠ [] ∧ (∀ g ∈ gs, IsAtGroup g) ∧ tail = gs.flatten ∧
      u = a ++ 'E' :: 'x' :: 'c' :: 'e' :: 'p' :: 't' :: 'i' :: 'o' :: 'n' ::
        (b ++ '\n' :: tail) := by
  simp only [stackRE, lang_seq_iff, RE.lang_reChar, reAnyPlus_lang_iff,
    reNl_lang_iff, atPlus_lang_iff]
  constructor
  · rintro ⟨a, v1, rfl, ⟨hane, hanl⟩, uE, v2, rfl, rfl, ux, v3, rfl, rfl,
      uc, v4, rfl, rfl, ue, v5, rfl, rfl, up, v6, rfl, rfl, ut, v7, rfl, rfl,
      ui, v8, rfl, rfl, uo, v9, rfl, rfl, un, v10, rfl, rfl,
      b, v11, rfl, ⟨hbne, hbnl⟩, unl, v12, rfl, rfl, gs, hgs, hall, rfl⟩
    refine ⟨a, b, gs.flatten, gs, hane, hanl, hbne, hbnl, hgs, hall, rfl, ?_⟩
    simp
  · rintro ⟨a, b, tail, gs, hane, hanl, hbne, hbnl, hgs, hall, rfl, rfl⟩
    exact ⟨a, _, rfl, ⟨hane, hanl⟩, ['E'], _, rfl, rfl, ['x'], _, rfl, rfl,
      ['c'], _, rfl, rfl, ['e'], _, rfl, rfl, ['p'], _, rfl, rfl,
      ['t'], _, rfl, rfl, ['i'], _, rfl, rfl, ['o'], _, rfl, rfl,
      ['n'], _, rfl, rfl, b, _, rfl, ⟨hbne, hbnl⟩, ['\n'], _, rfl, rfl,
      gs, hgs, hall, rfl⟩

theorem stack_prefix_iff (t : List Char) :
    stackRE.prefixMatch t = true ↔ StackMatch t := by
  rw [RE.prefixMatch_iff_lang]
  constructor
  · rintro ⟨u, v, rfl, hu⟩
    rw [stackRE_lang_iff] at hu
    obtain ⟨a, b, tail, gs, hane, hanl, hbne, hbnl, hgs, hall, rfl, rfl⟩ := hu
    refine ⟨a, b, v, gs, hane, hanl, hbne, hbnl, hgs, hall, ?_⟩
    simp [List.append_assoc]
  · rintro ⟨a, b, rest, gs, hane, hanl, hbne, hbnl, hgs, hall, rfl⟩
    refine ⟨a ++ 'E' :: 'x' :: 'c' :: 'e' :: 'p' :: 't' :: 'i' :: 'o' :: 'n' ::
      (b ++ '\n' :: gs.flatten), rest, ?_, ?_⟩
    · simp [List.append_assoc]
    · rw [stackRE_lang_iff]
      exact ⟨a, b, gs.flatten, gs, hane, hanl, hbne, hbnl, hgs, hall, rfl, rfl⟩

theorem compile_stack : compileGo stackExpr = some (true, stackRE) := rfl

theorem containsRegex_stack (s : String) :
    containsRegex s stackExpr = .ok (stackRE.prefixMatch s.toList) := by
  simp [containsRegex, compile_stack]

theorem hasStackLoop_spec (cs : List Comment) :
    hasStackLoop cs =
      .ok (cs.any fun comment => stackRE.prefixMatch comment.Body.toList) := by
  induction cs with
  | nil => rfl
  | cons c rest ih =>
    simp only [hasStackLoop, containsRegex_stack, List.any_cons]
    cases hb : stackRE.prefixMatch c.Body.toList
    · simp [ih]
    · simp

theorem hasStack_spec (issue : Issue) :
    HasStackTrace issue =
      .ok (stackRE.prefixMatch issue.Fields.Description.toList ||
        (issue.Fields.Comments.Comments.any
          fun comment => stackRE.prefixMatch comment.Body.toList)) := by
  simp only [HasStackTrace, containsRegex_stack]
  cases hb : stackRE.prefixMatch issue.Fields.Description.toList
  · simp [hasStackLoop_spec]
  · simp

/-! ## C6 -/

/-- C6 (amended): `HasStackTrace` never errs, and returns `true` exactly
when the description or some comment body *begins* with a first line
containing `Exception` with at least one character before it and at least
one newline-free character after it, followed by one or more lines of
optional whitespace, `at`, at least one further character and a
terminating newline.  A single `at` line suffices (not two), and an
`Exception` line that is not the first line of the text never matches,
because the pattern is anchored with `^`. -/
theorem c6_stack_detector_characterisation (issue : Issue) :
    ∃ b, HasStackTrace issue = .ok b ∧
      (b = true ↔ (StackMatch issue.Fields.Description.toList ∨
        ∃ comment ∈ issue.Fields.Comments.Comments,
          StackMatch comment.Body.toList)) := by
  refine ⟨_, hasStack_spec issue, ?_⟩
  rw [Bool.or_eq_true, List.any_eq_true, stack_prefix_iff]
  constructor
  · rintro (h | ⟨c, hc, h⟩)
    · exact Or.inl h
    · exact Or.inr ⟨c, hc, (stack_prefix_iff _).mp h⟩
  · rintro (h | ⟨c, hc, h⟩)
    · exact Or.inl h
    · exact Or.inr ⟨c, hc, (stack_prefix_iff _).mpr h⟩

/-- Counterexample to C6 as stated: a single `at` line after the
exception line is detected as a stack trace (the claim requires two),
and an `Exception` line that is not the text's first line is never
detected even with two `at` lines. -/
theorem c6_counterexample :
    HasStackTrace issOneAtLine = .ok true ∧
      HasStackTrace issExceptionSecondLine = .ok false := ⟨rfl, rfl⟩

/-! ## C10 -/

/-- C10: the two pattern literals compile successfully, so the
compilation-error branch of `containsRegex` is unreachable and both
detectors return a boolean verdict with a nil error on every issue. -/
theorem c10_detectors_never_err (issue : Issue) :
    (compileGo stepsExpr).isSome = true ∧
      (compileGo stackExpr).isSome = true ∧
      (HasStepsToReproduce issue).isOk = true ∧
      (HasStackTrace issue).isOk = true := by
  refine ⟨rfl, rfl, ?_, ?_⟩
  · rw [hasSteps_spec]
    rfl
  · rw [hasStack_spec]
    rfl
